import Mathlib

/-!
# Giffyglyph's Markdown Maker — verification of core behaviors

Shallow embedding of the core of the `giffyglyphs-markdown-maker` build
pipeline, translated from the JavaScript sources:

* `fileManager.findFile` — three-tier cascading file resolution,
* `build` / `_filterResults` — the always-settle build orchestrator,
* `configManager._loadFormatsIntoConfig` — format/project loading,
* `markdownManager` block tokenizers and the heading renderer,
* `markdownManager._parseTags` / `_renderDataTags` — attribute tags,
* `translationManager._getMessageKeys` — translation key lookup,
* `jobManager.getBuildJobs` / `_createJobs` — the job factory,
* `exportManager._getPrintRangeAsArray` — page-range parsing.

External collaborators (the filesystem, `JSON.parse`, `YAML.parse`) are
modelled as explicit function parameters, so every definition stays
executable and every theorem can be instantiated on concrete inputs.
-/

/-! ## Generic helpers for JavaScript semantics -/

/-- First `some` in a list of options (the result of a short-circuiting
`Array.prototype.some` loop that captures the first hit). -/
def firstSome {α : Type} : List (Option α) → Option α
  | [] => none
  | some a :: _ => some a
  | none :: rest => firstSome rest

/-- Model of `String.split(sep)` on character lists: JavaScript semantics, so the
empty string splits to `[""]` and separators at the ends produce empty
segments. -/
def splitChar (sep : Char) : List Char → List (List Char)
  | [] => [[]]
  | c :: cs =>
    match splitChar sep cs with
    | [] => [[c]]
    | s :: rest => if c = sep then [] :: s :: rest else (c :: s) :: rest

/-- Model of `[...new Set(xs)]`: deduplication keeping first occurrences, with an
accumulator of already-seen elements. -/
def jsSetDedupAux {α : Type} [DecidableEq α] (seen : List α) : List α → List α
  | [] => []
  | x :: xs =>
    if x ∈ seen then jsSetDedupAux seen xs else x :: jsSetDedupAux (x :: seen) xs

/-- Entry point of `jsSetDedupAux`, with no elements seen yet. -/
def jsSetDedup {α : Type} [DecidableEq α] (l : List α) : List α :=
  jsSetDedupAux [] l

/-- Path joining for the cascade model: `path.join` on clean relative
segments is `/`-intercalation. -/
def joinPath (parts : List String) : String :=
  String.intercalate "/" parts

/-! ## `fileManager.findFile` (cascading resolver)

From `fileManager.js`:
```js
function findFile(project, format, filepath) {
  const paths = [
    path.join(project.src, "formats", format.name, filepath),
    path.join(project.src, filepath),
    path.join(format.src, filepath)
  ];
  let file = null;
  paths.some((path) => {
    if (fs.existsSync(path)) { file = fs.readFileSync(path, 'utf8'); return true; }
    else { return false; }
  });
  return file;
}
```
The filesystem is a parameter `fs : String → Option String`
(`existsSync` = `fs p ≠ none`, `readFileSync` = the content). -/

/-- A loaded format or project descriptor: the fields `findFile` touches. -/
structure Resource where
  name : String
  src : String
deriving DecidableEq, Repr

/-- The three candidate paths of the cascade, most specific first. -/
def findFilePaths (project format : Resource) (filepath : String) : List String :=
  [ joinPath [project.src, "formats", format.name, filepath],
    joinPath [project.src, filepath],
    joinPath [format.src, filepath] ]

/-- Embedding of `fileManager.findFile`: first existing path's content, else `none`. -/
def findFile (fs : String → Option String) (project format : Resource)
    (filepath : String) : Option String :=
  firstSome ((findFilePaths project format filepath).map fs)

/-! ## `build` / `_filterResults` (build orchestrator aggregation)

From `build.js`:
```js
return Promise.allSettled([...jobs...]).then((results) => _filterResults(results));

function _filterResults(results) {
  let errors = results.filter((x) => x.status == 'rejected').flatMap((x) => x.reason);
  if (errors.length > 0) { return Promise.reject(errors); } else { return Promise.resolve(); }
}
```
A settled result is `Except ρ Unit`; a rejection reason is a *list* of
error values, because nested `_filterResults` layers reject with arrays
and `flatMap` flattens them one level.  `Promise.allSettled` never
short-circuits, so its output is exactly the list of per-task outcomes. -/

/-- Embedding of `_filterResults`: collect every rejection reason (flattened one level,
as `flatMap` does); reject with the collected list when nonempty. -/
def _filterResults {ε : Type} (results : List (Except (List ε) Unit)) :
    Except (List ε) Unit :=
  let errors :=
    (results.filterMap (fun r => match r with
      | .error e => some e
      | .ok _ => none)).flatten
  if errors.length > 0 then .error errors else .ok ()

/-- Aggregation of one level of leaf tasks: each leaf task rejects with a
single reason (a scalar in JS, flattened to itself by `flatMap`). -/
def buildAggregate {ε : Type} (outcomes : List (Except ε Unit)) :
    Except (List ε) Unit :=
  _filterResults (outcomes.map (fun r => r.mapError (fun e => [e])))

/-- Whether a settled outcome is a rejection. -/
def isRejected {ε : Type} (r : Except ε Unit) : Bool :=
  match r with
  | .error _ => true
  | .ok _ => false

/-! ## `configManager._loadFormatsIntoConfig` (resource loading)

From `configManager.js`: the per-entry loads are run under
`Promise.allSettled` (so a failing entry never aborts its siblings), and
then:
```js
let error = formats.find((x) => x.status == "rejected");
if (error) { throw error.reason; }
config.formats = formats.map((x) => x.value).filter((x) => x != null);
```
The embedding consumes the already-settled per-entry outcomes. -/

/-- Embedding of `_loadFormatsIntoConfig` (and the structurally identical
`_loadProjectsIntoConfig`) after settling: throw the FIRST rejection's
reason if any entry was rejected, else collect the loaded values. -/
def _loadFormatsIntoConfig {ε α : Type} (settled : List (Except ε α)) :
    Except ε (List α) :=
  match settled.findSome? (fun r => match r with
    | .error e => some e
    | .ok _ => none) with
  | some e => .error e
  | none => .ok (settled.filterMap (fun r => r.toOption))

/-! ## `exportManager._getPrintRangeAsArray` (page-range parsing)

From `exportManager.js`:
```js
function _getPrintRangeAsArray(range) {
  let ranges = range.split(",").flatMap((x) => {
    let matches = x.match(/^([0-9]*)-?([0-9]*)$/m) || [];
    if (matches[1] && matches[2]) {
      return Array.from({ length: parseInt(matches[2]) + 1 - parseInt(matches[1])}, (_, i) => parseInt(matches[1]) + i);
    } else if(matches[1]) { return parseInt(matches[1]);
    } else if (matches[2]) { return parseInt(matches[2]); }
  }).filter((x) => x != null);
  return [...new Set(ranges)].sort((x, y) => x - y);
}
```
The regex is anchored with the `m` flag, so it tries each line of the
segment in order; on one line, group 1 greedily takes the leading digit
run, then an optional `-`, then group 2 must be digits up to the line
end.  `matches[k]` is truthy iff that group captured a nonempty string. -/

/-- Model of `parseInt` on a captured digit run. -/
def natOfDigits (l : List Char) : Nat :=
  l.foldl (fun n c => n * 10 + (c.toNat - 48)) 0

/-- One line against `^([0-9]*)-?([0-9]*)$`: greedy leading digits, an
optional hyphen, then digits to the end; `none` when the line has any
other shape. -/
def lineMatch (cs : List Char) : Option (List Char × List Char) :=
  let d1 := cs.takeWhile (fun c => c.isDigit)
  match cs.dropWhile (fun c => c.isDigit) with
  | [] => some (d1, [])
  | '-' :: r =>
    if r.dropWhile (fun c => c.isDigit) = []
    then some (d1, r.takeWhile (fun c => c.isDigit))
    else none
  | _ => none

/-- Model of the segment match: with the `m` flag the anchors
bind to line boundaries, so the first line of the segment that matches
wholly supplies the groups. -/
def segmentMatch (seg : List Char) : Option (List Char × List Char) :=
  (splitChar '\n' seg).findSome? lineMatch

/-- One segment's contribution to the flatMap: an arithmetic range when
both groups captured (empty when reversed, as `Array.from` clamps a
non-positive length to zero), a single page when exactly one captured,
nothing otherwise (the `undefined` is removed by `.filter(x => x != null)`). -/
def segContribution (seg : List Char) : List Nat :=
  match segmentMatch seg with
  | none => []
  | some (d1, d2) =>
    if d1 ≠ [] ∧ d2 ≠ [] then
      List.range' (natOfDigits d1) (natOfDigits d2 + 1 - natOfDigits d1)
    else if d1 ≠ [] then [natOfDigits d1]
    else if d2 ≠ [] then [natOfDigits d2]
    else []

/-- Embedding of `_getPrintRangeAsArray`: split on commas, flatMap the contributions,
deduplicate via `Set` (first occurrences), then numeric ascending sort. -/
def _getPrintRangeAsArray (range : String) : List Nat :=
  let ranges := ((splitChar ',' range.data).map segContribution).flatten
  List.insertionSort (· ≤ ·) (jsSetDedup ranges)

/-! ## `markdownManager._parseTags` / `_renderDataTags` (attribute tags)

From `markdownManager.js`:
```js
function _parseTags(json) {
  try {
    let tags = JSON.parse(json);
    let dataAttributes = _renderDataTags(tags);
    tags["_data"] = dataAttributes ? dataAttributes : '';
    return tags;
  } catch (e) {
    logManager.postWarning({ message: `Couldn't parse json [${json}]`, ... });
    return {};
  }
}
function _renderDataTags(json) {
  let tags = [];
  if (json) {
    Object.entries(json).forEach(([x, y]) => {
      if (x matches the anchored regex "data dash prefix") { tags.push(`${x}="${y}"`); }
    });
  }
  return (tags.length == 0) ? '' : `${tags.join(" ")}`;
}
```
(the key test is the regex "starts with data followed by a hyphen", i.e.
a literal prefix test on the key).
`JSON.parse` is an external builtin, passed in as a parameter
`jsonParse : String → Option TagMap` (`none` models a thrown
`SyntaxError`). -/

/-- A JavaScript attribute value as it occurs in tag blocks. -/
inductive JsVal where
  | str (s : String)
  | num (n : Int)
deriving DecidableEq, Repr

/-- Template-literal interpolation of a value. -/
def jsValToString : JsVal → String
  | .str s => s
  | .num n => toString n

/-- JavaScript truthiness of an attribute value. -/
def jsTruthy : JsVal → Bool
  | .str s => s ≠ ""
  | .num n => n ≠ 0

/-- An attribute map: insertion-ordered key/value pairs, as produced by
`JSON.parse` on an object literal. -/
abbrev TagMap : Type := List (String × JsVal)

/-- Property lookup on an attribute map. -/
def tagLookup (m : TagMap) (k : String) : Option JsVal :=
  match m with
  | [] => none
  | (k', v) :: rest => if k' = k then some v else tagLookup rest k

/-- Property assignment `m[k] = v`: overwrite in place or append. -/
def tagSet (m : TagMap) (k : String) (v : JsVal) : TagMap :=
  match m with
  | [] => [(k, v)]
  | (k', v') :: rest =>
    if k' = k then (k', v) :: rest else (k', v') :: tagSet rest k v

/-- Embedding of `_renderDataTags`: collect `key="value"` strings for every `data-*`
key, space-joined; empty string when there are none. -/
def _renderDataTags (json : TagMap) : String :=
  let tags := (json.filter (fun kv => "data-".isPrefixOf kv.1)).map
    (fun kv => kv.1 ++ "=\"" ++ jsValToString kv.2 ++ "\"")
  if tags.length = 0 then "" else String.intercalate " " tags

/-- Embedding of `_parseTags`: on success, cache the data-attribute string under
`_data` and return the map with no warning; on a parse error, warn and
return the empty map.  The second component is the warning log. -/
def _parseTags (jsonParse : String → Option TagMap) (json : String) :
    TagMap × List String :=
  match jsonParse json with
  | some tags => (tagSet tags "_data" (.str (_renderDataTags tags)), [])
  | none => ([], ["Couldn't parse json [" ++ json ++ "]"])

/-! ## Markdown block extensions (tokenizer)

Every custom block type in `markdownManager.js` uses the same tokenizer
shape (here for `panel`; `_createBlockExtension(name)` generalises it):
```js
tokenizer(src) {
  const match = src.match(new RegExp("anchored: backslash name Begin, spaces, optional brace group, newline-or-dollar, lazy body, newline backslash name End", "s"));
  if (match) {
    const tags = match[1] ? _parseTags(match[1]) : {};
    const token = { type: name, raw: match[0], text: match[2]?.trim(), tags: tags, tokens: [] };
    this.lexer.blockTokens(token.text, token.tokens);
    return token;
  }
}
```
Concretely the pattern is: literal begin marker, a greedy run of spaces,
an optional lazy brace group (group 1), one character that is a newline
or a literal dollar sign (a character class, not an anchor), a lazy body
(group 2, dot-matches-newline), then a literal newline + end marker.
When the pattern does not match, the tokenizer returns `undefined`: no
token and no error of any kind.  The embedding implements exactly this
backtracking search. -/

/-- Lazy body search: find the first occurrence of `delim` in `cs` and
split there; `none` when `delim` never occurs. -/
def findSplit (delim : List Char) : List Char → Option (List Char × List Char)
  | [] => if delim = [] then some ([], []) else none
  | c :: cs =>
    if delim.isPrefixOf (c :: cs) then some ([], (c :: cs).drop delim.length)
    else (findSplit delim cs).map (fun p => (c :: p.1, p.2))

/-- Steps after the optional tag group: one newline-or-dollar character,
then the lazy body up to the first newline + end marker.  Returns the
body. -/
def restMatch (endDelim : List Char) (cs : List Char) : Option (List Char) :=
  match cs with
  | [] => none
  | c :: cs' =>
    if c = '\n' ∨ c = '$' then (findSplit endDelim cs').map (fun p => p.1)
    else none

/-- Lazy tag-group content search: try each closing brace from left to
right; at the first one where the rest of the pattern matches, stop with
(content, body).  Mirrors how a lazy group grows under backtracking. -/
def tagSearch (endDelim : List Char) : List Char → Option (List Char × List Char)
  | [] => none
  | c :: cs =>
    if c = '}' then
      match restMatch endDelim cs with
      | some body => some ([], body)
      | none => (tagSearch endDelim cs).map (fun p => (c :: p.1, p.2))
    else (tagSearch endDelim cs).map (fun p => (c :: p.1, p.2))

/-- JavaScript whitespace for `String.trim`. -/
def jsIsWs (c : Char) : Bool :=
  c = ' ' ∨ c = '\n' ∨ c = '\t' ∨ c = '\r'

/-- Model of `String.prototype.trim`. -/
def jsTrim (cs : List Char) : List Char :=
  ((cs.dropWhile jsIsWs).reverse.dropWhile jsIsWs).reverse

/-- A block token as the tokenizer builds it: the type name, the raw tag
group content (without the braces) when group 1 captured, and the
trimmed body text. -/
structure BlockToken where
  type : String
  tagsRaw : Option (List Char)
  text : List Char
deriving DecidableEq, Repr

/-- Embedding of the block tokenizer regex match for block type `name`:
begin marker, greedy spaces, optional lazy brace group, newline-or-dollar,
lazy body, newline + end marker.  Returns `none` exactly when the
JavaScript regex fails to match (the tokenizer returns `undefined`). -/
def matchBlock (name : String) (src : List Char) : Option BlockToken :=
  let beginMarker := '\\' :: (name.data ++ "Begin".data)
  let endDelim := '\n' :: '\\' :: (name.data ++ "End".data)
  if beginMarker.isPrefixOf src then
    let afterBegin := (src.drop beginMarker.length).dropWhile (fun c => c = ' ')
    match afterBegin with
    | '{' :: cs =>
      match tagSearch endDelim cs with
      | some (content, body) => some ⟨name, some content, jsTrim body⟩
      | none => none
    | _ =>
      match restMatch endDelim afterBegin with
      | some body => some ⟨name, none, jsTrim body⟩
      | none => none
  else none

/-- Tokenization including tag parsing, as the tokenizer body does:
`match[1]` is passed to `_parseTags` when present (with its braces), else
the tag map is empty. -/
def blockTokenize (jsonParse : String → Option TagMap) (name : String)
    (src : List Char) : Option (BlockToken × TagMap) :=
  (matchBlock name src).map (fun tok =>
    (tok, match tok.tagsRaw with
      | some g => (_parseTags jsonParse ("\x7b" ++ String.mk g ++ "\x7d")).1
      | none => []))

/-! ## Heading renderer

From `markdownManager.js` (`renderer.heading`, the no-override branch):
```js
heading(text, level) {
  const match = text.replace(ampersand-quot-entity, '"').match(anchored-multiline: lazy group 1, lazy spaces, optional lazy brace group, lazy spaces, end);
  if (match) {
    let title = match[1];
    let tags = match[2] ? _parseTags(match[2]) : {};
    ...
    let id = `id="${tags.id ? tags.id : title.replace(span-or-i-element-regex,"").trim().replace(spaces, '-').toLowerCase()}"`;
    let css = tags.class ? tags.class : '';
    let data = tags["_data"] ? tags["_data"] : '';
    return `\n\t\t\t\t\t<h${level} ${id} class="${css}" ${data}>${tags.index ? indexSpan : ``}${title}</h${level}>\n\t\t\t\t`;
  } else { ... }
}
```
The embedding covers single-line heading text (no newline), which is
what the parser hands to `renderer.heading`; on such text the multiline
flag is inert and the dot never meets a newline. -/

/-- Fuel-indexed global replacement of the six-character entity for a
double quote by the quote character itself; the fuel bounds the scanned
length, keeping the recursion structural. -/
def replaceQuotFuel : Nat → List Char → List Char
  | 0, cs => cs
  | _ + 1, [] => []
  | fuel + 1, c :: cs =>
    if "&quot;".data.isPrefixOf (c :: cs)
    then '"' :: replaceQuotFuel fuel ((c :: cs).drop 6)
    else c :: replaceQuotFuel fuel cs

/-- Global replacement of the quote entity by the quote character. -/
def replaceQuot (cs : List Char) : List Char :=
  replaceQuotFuel cs.length cs

/-- Lazy brace-group content for the heading match: stop at the first
closing brace that is followed only by spaces. -/
def headingTagContent : List Char → Option (List Char)
  | [] => none
  | c :: cs =>
    if c = '}' ∧ cs.all (fun d => d = ' ') then some []
    else (headingTagContent cs).map (fun t => c :: t)

/-- One attempt of the heading match at the current position: succeeds
with no group if the remaining text is all spaces (lazy group 1 stops
here), or with a tag group if after a space run it reads a brace group
followed only by spaces. -/
def tryHeadingHere (t : List Char) : Option (Option (List Char)) :=
  match t.dropWhile (fun c => c = ' ') with
  | [] => some none
  | '{' :: cs => (headingTagContent cs).map some
  | _ => none

/-- Backtracking scan for the heading match: grow lazy group 1 one
character at a time until a completion is found; the whole text with no
group is always a completion at the end, so the regex always matches on
single-line text. -/
def headingSplitGo (acc t : List Char) : List Char × Option (List Char) :=
  match tryHeadingHere t with
  | some tagsOpt => (acc.reverse, tagsOpt)
  | none =>
    match t with
    | [] => (acc.reverse, none)
    | c :: cs => headingSplitGo (c :: acc) cs

/-- Heading text split into (title, optional tag group content). -/
def headingSplit (cs : List Char) : List Char × Option (List Char) :=
  headingSplitGo [] cs

/-- Closing-tag search for the span-or-i-stripping regex: the lazy inner
content runs to the first closing span or closing i tag (the dot does
not cross newlines); returns the remainder after the closing tag. -/
def closeSearch : List Char → Option (List Char)
  | [] => none
  | c :: cs =>
    if "</span>".data.isPrefixOf (c :: cs) then some ((c :: cs).drop 7)
    else if "</i>".data.isPrefixOf (c :: cs) then some ((c :: cs).drop 4)
    else if c = '\n' then none
    else closeSearch cs

/-- After an opening `<span` or `<i`: lazy attribute run to a closing
angle bracket whose remainder contains a closing tag, with backtracking
over later closing angle brackets. -/
def afterOpen : List Char → Option (List Char)
  | [] => none
  | c :: cs =>
    if c = '\n' then none
    else if c = '>' then
      match closeSearch cs with
      | some r => some r
      | none => afterOpen cs
    else afterOpen cs

/-- One attempt to match the span-or-i element regex right after a `<`:
the alternation tries `span` before `i`. -/
def tryTag (cs : List Char) : Option (List Char) :=
  if "span".data.isPrefixOf cs then afterOpen (cs.drop 4)
  else if "i".data.isPrefixOf cs then afterOpen (cs.drop 1)
  else none

/-- Fuel-indexed global replacement of span-or-i elements by nothing
(`title.replace(span-or-i-element-regex, "")`); the fuel is an upper
bound on the scanned length, so `stripSpanI` below is total. -/
def stripSpanIFuel : Nat → List Char → List Char
  | 0, cs => cs
  | _ + 1, [] => []
  | fuel + 1, c :: rest =>
    if c = '<' then
      match tryTag rest with
      | some rem => stripSpanIFuel fuel rem
      | none => c :: stripSpanIFuel fuel rest
    else c :: stripSpanIFuel fuel rest

/-- Global removal of span and i elements from a title. -/
def stripSpanI (cs : List Char) : List Char :=
  stripSpanIFuel cs.length cs

/-- The derived heading id, exactly as the source composes it:
strip span/i elements, trim, replace spaces by hyphens, lowercase. -/
def codeSlug (title : List Char) : List Char :=
  ((jsTrim (stripSpanI title)).map (fun c => if c = ' ' then '-' else c)).map
    (fun c => c.toLower)

/-- The heading template literal: a newline, five tabs, the h element
with id/class/data attributes and optional index span, then a newline
and four tabs. -/
def headingTemplate (level : Nat) (idv css data index title : String) : String :=
  "\n\t\t\t\t\t<h" ++ toString level ++ " id=\"" ++ idv ++ "\" class=\"" ++
    css ++ "\" " ++ data ++ ">" ++ index ++ title ++ "</h" ++ toString level ++
    ">\n\t\t\t\t"

/-- Embedding of `renderer.heading` with no format override registered:
replace quote entities, run the heading match, parse the optional tag
group, then emit the template with the explicit id when the `id` tag is
truthy and the derived slug otherwise. -/
def renderHeading (jsonParse : String → Option TagMap) (text : String)
    (level : Nat) : String :=
  let replaced := replaceQuot text.data
  let split := headingSplit replaced
  let title := split.1
  let tags : TagMap :=
    match split.2 with
    | some g => (_parseTags jsonParse ("\x7b" ++ String.mk g ++ "\x7d")).1
    | none => []
  let idv : String :=
    match tagLookup tags "id" with
    | some v => if jsTruthy v then jsValToString v else String.mk (codeSlug title)
    | none => String.mk (codeSlug title)
  let css : String :=
    match tagLookup tags "class" with
    | some v => if jsTruthy v then jsValToString v else ""
    | none => ""
  let data : String :=
    match tagLookup tags "_data" with
    | some v => if jsTruthy v then jsValToString v else ""
    | none => ""
  let index : String :=
    match tagLookup tags "index" with
    | some v =>
      if jsTruthy v then "<span class=\"index\">" ++ jsValToString v ++ "</span>"
      else ""
    | none => ""
  headingTemplate level idv css data index (String.mk title)

/-! ## `translationManager._getMessageKeys` (translation lookup)

From `translationManager.js`:
```js
function _getMessageKeys(project, format, language) {
  if (!messageKeys[`${project.name}.${format.name}.${language}`]) {
    let translations = fileManager.getFileVariants(project, format, `translations/${language}.yml`);
    if (translations.length > 0) {
      translations = translations.map((x) => YAML.parse(x)).reverse().reduce((x, y) => Object.assign(x, y), {});
    }
    messageKeys[`${project.name}.${format.name}.${language}`] = translations;
  }
  return messageKeys[`${project.name}.${format.name}.${language}`];
}
```
The embedding gives the single-call semantics (the module-level cache
only memoises the same computation).  `YAML.parse` is an external
builtin, passed as a parameter producing a key/value map. -/

/-- A parsed YAML translation map: insertion-ordered key/value pairs. -/
abbrev TransMap : Type := List (String × String)

/-- Key lookup in a translation map. -/
def transLookup (m : TransMap) (k : String) : Option String :=
  match m with
  | [] => none
  | (k', v) :: rest => if k' = k then some v else transLookup rest k

/-- Model of `Object.assign(x, y)`: keys of `y` overwrite matching keys
of `x` in place; keys new in `y` are appended in order. -/
def jsAssign (x y : TransMap) : TransMap :=
  (x.map (fun kv => (kv.1, match transLookup y kv.1 with
    | some w => w
    | none => kv.2)))
  ++ y.filter (fun kv => (transLookup x kv.1).isNone)

/-- Modelled from the spec: `fileManager.getFileVariants` is called by
`_getMessageKeys` but its definition is not under `src/`.  Following the
three cascade tiers of the spec's resolution rule, and the caller's use
of the result as a list that is mapped, reversed and merged, it returns
the contents of every existing file among the three tier paths, most
specific first (the same path list `findFile` probes). -/
def getFileVariants (fs : String → Option String) (project format : Resource)
    (filepath : String) : List String :=
  (findFilePaths project format filepath).filterMap fs

/-- Embedding of `_getMessageKeys` (single call): gather all tier
variants, parse each, then merge them back-to-front with
`Object.assign`, so later (more specific) maps overwrite earlier ones
key by key. -/
def _getMessageKeys (yamlParse : String → TransMap)
    (fs : String → Option String) (project format : Resource)
    (language : String) : TransMap :=
  let translations :=
    getFileVariants fs project format ("translations/" ++ language ++ ".yml")
  if translations.length > 0 then
    ((translations.map yamlParse).reverse).foldl jsAssign []
  else []

/-- Written from the spec's words, for comparison with the code: the
spec says translation files use "the single cascading rule" of the
resolver — resolve the file once, first tier match wins, and use only
that one file's key map with no merging across tiers. -/
def specTranslationKeys (yamlParse : String → TransMap)
    (fs : String → Option String) (project format : Resource)
    (language : String) : TransMap :=
  match findFile fs project format ("translations/" ++ language ++ ".yml") with
  | some content => yamlParse content
  | none => []

/-! ## `jobManager.getBuildJobs` / `_createJobs` (job factory)

From `jobManager.js`: `_createJobs` resolves the selected project names
and format names against the configuration, warns and skips a selected
pair the project does not require, and otherwise invokes the callback;
`getBuildJobs`'s callback expands one job per task, and for the `html`
task one job per language.  Selection lists are deduplicated through
`Set`.  A selected name that resolves to no loaded project/format makes
the JavaScript throw a `TypeError` when a property of `undefined` is
read; the embedding models that run as `none`. -/

/-- A required-format entry of a project (`project.formats[i]`). -/
structure ProjFormat where
  name : String
  version : String
  languages : List String
deriving DecidableEq, Repr

/-- A loaded project as the job factory sees it. -/
structure Project where
  name : String
  src : String
  version : String
  formats : List ProjFormat
deriving DecidableEq, Repr

/-- A loaded format as the job factory sees it. -/
structure FormatCfg where
  name : String
  src : String
  version : String
deriving DecidableEq, Repr

/-- The configuration slice the job factory reads. -/
structure Config where
  outputBuild : String
  outputExport : String
  formats : List FormatCfg
  projects : List Project
deriving Repr

/-- The argument slice `getBuildJobs` reads. -/
structure BuildArgs where
  projects : Option (List String)
  formats : Option (List String)
  languages : Option (List String)
  tasks : Option (List String)
  debug : Bool
deriving Repr

/-- A created job: the fields `_createJob` fills for a build job. -/
structure Job where
  projectName : String
  formatName : String
  task : String
  language : Option String
  outputBuild : String
  outputExport : String
  debug : Bool
deriving DecidableEq, Repr

/-- The valid build task names, from `build.js`. -/
def listBuildTasks : List String :=
  ["fonts", "html", "images", "scripts", "stylesheets", "vendors"]

/-- Embedding of `_createJob` plus the option assignment: output paths
are rooted at `output.build`/`output.export` under project and format
names. -/
def _createJob (config : Config) (project : Project) (format : FormatCfg)
    (task : String) (language : Option String) (debug : Bool) : Job :=
  { projectName := project.name
    formatName := format.name
    task := task
    language := language
    outputBuild := joinPath [config.outputBuild, project.name, format.name]
    outputExport := joinPath [config.outputExport, project.name, format.name]
    debug := debug }

/-- Embedding of the `getBuildJobs` callback for one (project, format)
pair: expand each selected task; for `html`, resolve the language list
(the selection, or the project's declared languages for this format) and
emit one job per language, warning when no language list exists. -/
def buildCallback (config : Config) (args : BuildArgs) (project : Project)
    (format : FormatCfg) : List Job × List String :=
  let tasks := match args.tasks with
    | some ts => jsSetDedup ts
    | none => listBuildTasks
  let contributions := tasks.map (fun task =>
    if task = "html" then
      let languagesOpt : Option (List String) :=
        match args.languages with
        | some ls => some (jsSetDedup ls)
        | none =>
          (project.formats.find? (fun x => x.name == format.name)).map
            (fun x => x.languages)
      match languagesOpt with
      | none =>
        (([] : List Job),
          ["No valid output languages specified for \"" ++ project.name ++
            "/" ++ format.name ++ "\": skipping..."])
      | some langs =>
        (langs.map (fun lang => _createJob config project format task
          (some lang) args.debug), [])
    else ([_createJob config project format task none args.debug], []))
  ((contributions.map Prod.fst).flatten, (contributions.map Prod.snd).flatten)

/-- One (project, format) pair inside `_createJobs`: warn and skip when
the project does not list the format as required, else run the callback. -/
def pairExpansion
    (callback : Config → BuildArgs → Project → FormatCfg → List Job × List String)
    (config : Config) (args : BuildArgs) (project : Project)
    (format : FormatCfg) : List Job × List String :=
  if (project.formats.find? (fun x => x.name == format.name)).isNone then
    ([], ["Project \"" ++ project.name ++ "\" doesn't support format \"" ++
      format.name ++ "\": skipping..."])
  else callback config args project format

/-- Resolution of the selected project names against the configuration;
an unresolved name models the JavaScript `TypeError` run as `none`. -/
def selProjects (config : Config) (args : BuildArgs) : Option (List Project) :=
  (match args.projects with
    | some ps => jsSetDedup ps
    | none => config.projects.map (fun (x : Project) => x.name)).mapM
    (fun n => config.projects.find? (fun y => y.name == n))

/-- Resolution of the selected format names for one project. -/
def selFormats (config : Config) (args : BuildArgs) (project : Project) :
    Option (List FormatCfg) :=
  (match args.formats with
    | some fs => jsSetDedup fs
    | none => project.formats.map (fun (x : ProjFormat) => x.name)).mapM
    (fun n => config.formats.find? (fun y => y.name == n))

/-- Embedding of `_createJobs`: iterate selected projects, then selected
formats, accumulating pushed jobs and warnings in order. -/
def _createJobs
    (callback : Config → BuildArgs → Project → FormatCfg → List Job × List String)
    (config : Config) (args : BuildArgs) : Option (List Job × List String) :=
  match selProjects config args with
  | none => none
  | some projects =>
    (projects.mapM (fun project =>
      (selFormats config args project).map (fun formats =>
        let pairs := formats.map (fun format =>
          pairExpansion callback config args project format)
        ((pairs.map Prod.fst).flatten, (pairs.map Prod.snd).flatten)))).map
      (fun perProject =>
        (((perProject.map Prod.fst).flatten : List Job),
          ((perProject.map Prod.snd).flatten : List String)))

/-- Embedding of `getBuildJobs`: `_createJobs` with the build callback.
The second component is the warning log (the source prints it). -/
def getBuildJobs (config : Config) (args : BuildArgs) :
    Option (List Job × List String) :=
  _createJobs buildCallback config args

/-- Number of created jobs carrying a given task name. -/
def countTask (jobs : List Job) (t : String) : Nat :=
  (jobs.filter (fun j => j.task == t)).length

/-! ## Theorems -/

/-- Helper: `firstSome` on a three-element list, fully cased. -/
theorem aux_firstSome_three {α : Type} (a b c : Option α) :
    firstSome [a, b, c] =
      match a with
      | some x => some x
      | none => match b with
        | some y => some y
        | none => c := by
  cases a <;> cases b <;> cases c <;> rfl

/-- C1: the cascading resolver returns the project+format tier's content
when that file exists; otherwise the project tier's; otherwise the
format tier's; otherwise `none` — first match wins and later tiers are
never consulted after a hit. -/
theorem giffy_c1 (fs : String → Option String) (project format : Resource)
    (filepath : String) :
    (∀ c, fs (joinPath [project.src, "formats", format.name, filepath]) = some c →
      findFile fs project format filepath = some c) ∧
    (fs (joinPath [project.src, "formats", format.name, filepath]) = none →
      ∀ c, fs (joinPath [project.src, filepath]) = some c →
        findFile fs project format filepath = some c) ∧
    (fs (joinPath [project.src, "formats", format.name, filepath]) = none →
      fs (joinPath [project.src, filepath]) = none →
      findFile fs project format filepath = fs (joinPath [format.src, filepath])) := by
  refine ⟨?_, ?_, ?_⟩ <;>
    simp only [findFile, findFilePaths, List.map, aux_firstSome_three]
  · intro c h; simp [h]
  · intro h1 c h2; simp [h1, h2]
  · intro h1 h2; simp [h1, h2]

/-- C1 witness: a filesystem holding content in the most specific tier
resolves to that content, via the first conjunct of the theorem. -/
theorem giffy_c1_witness :
    findFile (fun p => if p = "proj/formats/f/x.md" then some "A" else none)
      ⟨"p", "proj"⟩ ⟨"f", "fmt"⟩ "x.md" = some "A" :=
  (giffy_c1 (fun p => if p = "proj/formats/f/x.md" then some "A" else none)
    ⟨"p", "proj"⟩ ⟨"f", "fmt"⟩ "x.md").1 "A" (by rfl)

/-- Helper: extracting the rejection reasons of leaf outcomes. -/
theorem aux_buildAggregate_errors {ε : Type} (outcomes : List (Except ε Unit)) :
    ((outcomes.map (fun r => r.mapError (fun e => [e]))).filterMap
      (fun r => match r with
        | Except.error e => some e
        | Except.ok _ => none)).flatten
      = outcomes.filterMap (fun r => match r with
        | Except.error e => some e
        | Except.ok _ => none) := by
  induction outcomes with
  | nil => rfl
  | cons r rest ih => cases r <;> simp_all [Except.mapError]

/-- Helper: the number of rejection reasons equals the number of
rejected outcomes. -/
theorem aux_rejected_count {ε : Type} (outcomes : List (Except ε Unit)) :
    (outcomes.filterMap (fun r => match r with
      | Except.error e => some e
      | Except.ok _ => none)).length
      = (outcomes.filter isRejected).length := by
  induction outcomes with
  | nil => rfl
  | cons r rest ih => cases r <;> simp_all [isRejected]

/-- C2: for a list of concurrently settled job outcomes, every outcome
is aggregated (the settled list has one entry per job, so no failure
short-circuits its siblings), the build is a failure iff at least one
outcome is rejected, and the rejected-reason list has exactly one reason
per failed build. -/
theorem giffy_c2 {ε : Type} (outcomes : List (Except ε Unit)) :
    (buildAggregate outcomes = Except.ok () ↔
      (outcomes.filter isRejected).length = 0) ∧
    (∀ l, buildAggregate outcomes = Except.error l →
      l.length = (outcomes.filter isRejected).length) := by
  have key : buildAggregate outcomes =
      (if ((outcomes.filterMap (fun r => match r with
        | Except.error e => some e
        | Except.ok _ => none)).length > 0)
      then Except.error (outcomes.filterMap (fun r => match r with
        | Except.error e => some e
        | Except.ok _ => none))
      else Except.ok ()) := by
    simp only [buildAggregate, _filterResults, aux_buildAggregate_errors]
  constructor
  · rw [key]
    split
    · rename_i hpos
      constructor
      · intro h; exact absurd h (by simp)
      · intro h; rw [aux_rejected_count] at hpos; omega
    · rename_i hz
      rw [aux_rejected_count] at hz
      constructor
      · intro _; omega
      · intro _; rfl
  · intro l hl
    rw [key] at hl
    split at hl
    · cases hl; rw [aux_rejected_count]
    · cases hl

/-- C2 witness: three settled outcomes with two rejections give a
rejected-reason list of length two. -/
theorem giffy_c2_witness :
    (["boom", "bad"] : List String).length =
      (([Except.error "boom", Except.ok (), Except.error "bad"] :
        List (Except String Unit)).filter isRejected).length :=
  (giffy_c2 [Except.error "boom", Except.ok (), Except.error "bad"]).2
    ["boom", "bad"] (by rfl)

/-- C3 counterexample: with two broken entries, the failure thrown by
`_loadFormatsIntoConfig` is identical to the failure thrown when only
the first entry is broken — the reported failure provably carries no
information about the second broken entry, so it does not "report every
broken entry". -/
theorem giffy_c3_counterexample :
    _loadFormatsIntoConfig
        ([Except.error "bad A", Except.error "bad B"] : List (Except String String))
      = _loadFormatsIntoConfig
        ([Except.error "bad A", Except.ok "fine B"] : List (Except String String)) ∧
    _loadFormatsIntoConfig
        ([Except.error "bad A", Except.error "bad B"] : List (Except String String))
      = Except.error "bad A" := by
  exact ⟨rfl, rfl⟩

/-- C3 (amended): loading settles every entry (no abort), but on failure
it throws only the FIRST broken entry's reason in list order; when no
entry is broken it returns all loaded values. -/
theorem giffy_c3_theorem {ε α : Type} (pre post : List (Except ε α)) (e : ε)
    (hpre : ∀ r ∈ pre, ∃ a, r = Except.ok a) :
    _loadFormatsIntoConfig (pre ++ Except.error e :: post) = Except.error e ∧
    (∀ settled : List (Except ε α), (∀ r ∈ settled, ∃ a, r = Except.ok a) →
      _loadFormatsIntoConfig settled =
        Except.ok (settled.filterMap (fun r => r.toOption))) := by
  constructor
  · induction pre with
    | nil => rfl
    | cons r rest ih =>
      obtain ⟨a, ha⟩ := hpre r (by simp)
      subst ha
      have hrest := ih (fun r hr => hpre r (by simp [hr]))
      have hfind : (rest ++ Except.error e :: post).findSome?
          (fun r => match r with
            | Except.error e => some e
            | Except.ok _ => none) = some e := by
        unfold _loadFormatsIntoConfig at hrest
        split at hrest
        · rename_i e' he'
          cases hrest
          exact he'
        · cases hrest
      unfold _loadFormatsIntoConfig
      simp only [List.cons_append, List.findSome?_cons, hfind]
  · intro settled hok
    have : settled.findSome? (fun r => match r with
        | Except.error e => some e
        | Except.ok _ => none) = none := by
      induction settled with
      | nil => rfl
      | cons r rest ih =>
        obtain ⟨a, ha⟩ := hok r (by simp)
        subst ha
        simpa [List.findSome?] using ih (fun r hr => hok r (by simp [hr]))
    simp [_loadFormatsIntoConfig, this]

/-- C3 witness: one sound entry, then two broken entries; the failure is
the first broken entry's reason, and an all-sound list loads fully. -/
theorem giffy_c3_witness :
    (_loadFormatsIntoConfig
      ([Except.ok 1, Except.error 10, Except.error 20] : List (Except Nat Nat))
      = Except.error 10) ∧
    (_loadFormatsIntoConfig ([Except.ok 1, Except.ok 2] : List (Except Nat Nat))
      = Except.ok [1, 2]) := by
  have h := giffy_c3_theorem ([Except.ok 1] : List (Except Nat Nat))
    [Except.error 20] 10 (by intro r hr; simp at hr; exact ⟨1, hr⟩)
  refine ⟨h.1, ?_⟩
  have h2 := h.2 [Except.ok 1, Except.ok 2] (by
    intro r hr
    simp at hr
    rcases hr with h | h <;> exact ⟨_, h⟩)
  simpa [Except.toOption] using h2

/-- Helper: `firstSome` distributes over cons as `Option.or`. -/
theorem aux_firstSome_cons {α : Type} (o : Option α) (t : List (Option α)) :
    firstSome (o :: t) = o.or (firstSome t) := by
  cases o <;> rfl

/-- Helper: `firstSome` distributes over append as `Option.or`. -/
theorem aux_firstSome_append {α : Type} (a b : List (Option α)) :
    firstSome (a ++ b) = (firstSome a).or (firstSome b) := by
  induction a with
  | nil => simp [firstSome]
  | cons o t ih => simp [aux_firstSome_cons, ih, Option.or_assoc]

/-- Helper: lookup distributes over append as `Option.or`. -/
theorem aux_transLookup_append (a b : TransMap) (k : String) :
    transLookup (a ++ b) k = (transLookup a k).or (transLookup b k) := by
  induction a with
  | nil => simp [transLookup]
  | cons kv t ih =>
    by_cases h : kv.1 = k <;> simp [transLookup, h, ih]

/-- Helper: lookup in the overwritten copy of `x` that `jsAssign` builds. -/
theorem aux_transLookup_mapAssign (x y : TransMap) (k : String) :
    transLookup (x.map (fun kv => (kv.1, match transLookup y kv.1 with
      | some w => w
      | none => kv.2))) k =
      match transLookup x k with
      | some v => some ((transLookup y k).getD v)
      | none => none := by
  induction x with
  | nil => simp [transLookup]
  | cons kv t ih =>
    by_cases h : kv.1 = k
    · subst h
      cases hy : transLookup y kv.1 <;> simp [transLookup, hy]
    · simp [transLookup, h, ih]

/-- Helper: lookup in the appended filtered part of `jsAssign`, when the
key is absent from `x`. -/
theorem aux_transLookup_filterNew (x y : TransMap) (k : String)
    (hx : transLookup x k = none) :
    transLookup (y.filter (fun kv => (transLookup x kv.1).isNone)) k =
      transLookup y k := by
  induction y with
  | nil => rfl
  | cons kv t ih =>
    by_cases h : kv.1 = k
    · subst h
      simp [List.filter, hx, transLookup]
    · by_cases hkeep : (transLookup x kv.1).isNone = true <;>
        simp [List.filter, hkeep, transLookup, h, ih]

/-- Helper: per-key semantics of `Object.assign`: the right operand's
binding wins, falling back to the left operand's. -/
theorem aux_transLookup_jsAssign (x y : TransMap) (k : String) :
    transLookup (jsAssign x y) k = (transLookup y k).or (transLookup x k) := by
  unfold jsAssign
  rw [aux_transLookup_append, aux_transLookup_mapAssign]
  cases hx : transLookup x k with
  | none =>
    rw [aux_transLookup_filterNew x y k hx]
    cases transLookup y k <;> rfl
  | some v =>
    cases hy : transLookup y k <;> simp [Option.getD, Option.or]

/-- Helper: per-key semantics of the reduce-with-assign fold. -/
theorem aux_transLookup_foldl (l : List TransMap) (init : TransMap) (k : String) :
    transLookup (l.foldl jsAssign init) k =
      (firstSome (l.reverse.map (fun m => transLookup m k))).or
        (transLookup init k) := by
  induction l generalizing init with
  | nil => simp [firstSome]
  | cons m rest ih =>
    simp only [List.foldl_cons, List.reverse_cons, List.map_append, List.map]
    rw [ih, aux_firstSome_append, aux_firstSome_cons]
    simp [aux_transLookup_jsAssign, Option.or_assoc, firstSome]

/-- Helper: first hit over a filterMapped list equals first hit over the
bind chain. -/
theorem aux_firstSome_filterMap {α β γ : Type} (l : List α) (g : α → Option β)
    (h : β → Option γ) :
    firstSome ((l.filterMap g).map h) =
      firstSome (l.map (fun a => (g a).bind h)) := by
  induction l with
  | nil => rfl
  | cons a rest ih =>
    cases hg : g a
    · simpa [List.filterMap_cons, hg, aux_firstSome_cons] using ih
    · simp [List.filterMap_cons, hg, aux_firstSome_cons, ih]

/-- Helper: the translation-key computation is the assign-fold over all
parsed variants, unconditionally (an empty variant list folds to the
empty map, which is also what the guard returns). -/
theorem aux_getMessageKeys_eq (yamlParse : String → TransMap)
    (fs : String → Option String) (project format : Resource)
    (language : String) :
    _getMessageKeys yamlParse fs project format language =
      (((getFileVariants fs project format
        ("translations/" ++ language ++ ".yml")).map yamlParse).reverse).foldl
        jsAssign [] := by
  unfold _getMessageKeys
  cases h : getFileVariants fs project format
    ("translations/" ++ language ++ ".yml") <;> simp [h]

/-- C5 (amended): translation lookup is a PER-KEY cascade, not a
per-file one: for every key, the returned binding is the first hit over
the three tier paths in most-specific-first order, taken from each
tier's parsed map — so bindings from different tiers are merged into one
key map, with the most specific tier winning per key. -/
theorem giffy_c5_theorem (yamlParse : String → TransMap)
    (fs : String → Option String) (project format : Resource)
    (language k : String) :
    transLookup (_getMessageKeys yamlParse fs project format language) k =
      firstSome ((findFilePaths project format
        ("translations/" ++ language ++ ".yml")).map
        (fun p => (fs p).bind (fun content => transLookup (yamlParse content) k))) := by
  rw [aux_getMessageKeys_eq, aux_transLookup_foldl]
  simp only [List.reverse_reverse, transLookup, Option.or_none, List.map_map]
  rw [getFileVariants, aux_firstSome_filterMap]
  rfl

/-- C5 counterexample: with the translation file present in the project
tier (keys `a`) and the format tier (keys `b`) but not the
project+format tier, the code returns a map holding BOTH keys, whereas
the claimed single first-match-wins resolution would use only the
project tier's map, which has no binding for `b`. -/
theorem giffy_c5_counterexample :
    let yaml : String → TransMap := fun s =>
      if s = "a: 1" then [("a", "1")] else if s = "b: 2" then [("b", "2")] else []
    let fs : String → Option String := fun p =>
      if p = "proj/translations/en.yml" then some "a: 1"
      else if p = "fmt/translations/en.yml" then some "b: 2" else none
    _getMessageKeys yaml fs ⟨"p", "proj"⟩ ⟨"f", "fmt"⟩ "en"
        = [("b", "2"), ("a", "1")] ∧
    specTranslationKeys yaml fs ⟨"p", "proj"⟩ ⟨"f", "fmt"⟩ "en" = [("a", "1")] ∧
    transLookup (_getMessageKeys yaml fs ⟨"p", "proj"⟩ ⟨"f", "fmt"⟩ "en") "b"
        = some "2" ∧
    transLookup (specTranslationKeys yaml fs ⟨"p", "proj"⟩ ⟨"f", "fmt"⟩ "en") "b"
        = none :=
  ⟨rfl, rfl, rfl, rfl⟩

/-- Helper: membership in the Set-based deduplication. -/
theorem aux_jsSetDedupAux_mem {α : Type} [DecidableEq α] (l : List α)
    (seen : List α) (x : α) :
    x ∈ jsSetDedupAux seen l ↔ x ∈ l ∧ x ∉ seen := by
  induction l generalizing seen with
  | nil => simp [jsSetDedupAux]
  | cons y ys ih =>
    by_cases hy : y ∈ seen
    · rw [jsSetDedupAux, if_pos hy, ih]
      simp only [List.mem_cons]
      constructor
      · tauto
      · rintro ⟨rfl | hm, hs⟩
        · exact absurd hy hs
        · tauto
    · rw [jsSetDedupAux, if_neg hy]
      simp only [List.mem_cons, ih]
      by_cases hxy : x = y
      · subst hxy; tauto
      · tauto

/-- Helper: the Set-based deduplication has no duplicates. -/
theorem aux_jsSetDedupAux_nodup {α : Type} [DecidableEq α] (l : List α)
    (seen : List α) : (jsSetDedupAux seen l).Nodup := by
  induction l generalizing seen with
  | nil => simp [jsSetDedupAux]
  | cons y ys ih =>
    by_cases hy : y ∈ seen
    · simpa [jsSetDedupAux, hy] using ih seen
    · simp only [jsSetDedupAux, if_neg hy]
      refine List.Nodup.cons ?_ (ih (y :: seen))
      intro hmem
      exact ((aux_jsSetDedupAux_mem ys (y :: seen) y).1 hmem).2 (.head _)

/-- Helper: deduplications of permuted lists are permuted. -/
theorem aux_jsSetDedup_perm {α : Type} [DecidableEq α] {l₁ l₂ : List α}
    (h : l₁.Perm l₂) : (jsSetDedup l₁).Perm (jsSetDedup l₂) := by
  refine (List.perm_ext_iff_of_nodup (aux_jsSetDedupAux_nodup l₁ [])
    (aux_jsSetDedupAux_nodup l₂ [])).mpr (fun a => ?_)
  simp only [jsSetDedup, aux_jsSetDedupAux_mem, List.not_mem_nil,
    not_false_iff, and_true]
  exact h.mem_iff

/-- Helper: ascending sort after deduplication is permutation-invariant. -/
theorem aux_sortedDedup_eq {l₁ l₂ : List Nat} (h : l₁.Perm l₂) :
    List.insertionSort (· ≤ ·) (jsSetDedup l₁) =
      List.insertionSort (· ≤ ·) (jsSetDedup l₂) := by
  refine List.eq_of_perm_of_sorted ?_ (List.sorted_insertionSort _ _)
    (List.sorted_insertionSort _ _)
  exact (List.perm_insertionSort _ _).trans
    ((aux_jsSetDedup_perm h).trans (List.perm_insertionSort _ _).symm)

/-- C7: the page-range parser sends `"1-3,5,8-9"` to `[1,2,3,5,8,9]` and
`"5,1-3"` to `[1,2,3,5]`, and for any two inputs whose comma-separated
segment lists are permutations of each other the results coincide:
the output is a deduplicated ascending list, independent of segment
order. -/
theorem giffy_c7 :
    _getPrintRangeAsArray "1-3,5,8-9" = [1, 2, 3, 5, 8, 9] ∧
    _getPrintRangeAsArray "5,1-3" = [1, 2, 3, 5] ∧
    (∀ s₁ s₂ : String, (splitChar ',' s₁.data).Perm (splitChar ',' s₂.data) →
      _getPrintRangeAsArray s₁ = _getPrintRangeAsArray s₂) := by
  refine ⟨by rfl, by rfl, fun s₁ s₂ h => ?_⟩
  unfold _getPrintRangeAsArray
  refine aux_sortedDedup_eq ?_
  have := h.flatMap_right segContribution
  simpa [List.flatMap] using this

/-- C7 witness: the two segment orders of the spec's example give the
same parse. -/
theorem giffy_c7_witness :
    _getPrintRangeAsArray "5,1-3" = _getPrintRangeAsArray "1-3,5" := by
  refine giffy_c7.2.2 "5,1-3" "1-3,5" ?_
  have e1 : splitChar ',' "5,1-3".data = [['5'], ['1', '-', '3']] := rfl
  have e2 : splitChar ',' "1-3,5".data = [['1', '-', '3'], ['5']] := rfl
  rw [e1, e2]
  exact List.Perm.swap _ _ _

/-- C10 counterexample: the segment `-7` matches neither the grammar `N`
nor `N-M`, yet it is not dropped: the parser returns `[7]` (the code's
third branch returns `parseInt(matches[2])` when only group 2 captured).
Under the claim the result would have been `[]`. -/
theorem giffy_c10_counterexample :
    _getPrintRangeAsArray "-7" = [7] := by rfl

/-- Helper: `takeWhile`/`dropWhile` on a satisfying run followed by a
non-satisfying element. -/
theorem aux_takeDropWhile_append {p : Char → Bool} (d1 : List Char) (x : Char)
    (rest : List Char) (h1 : ∀ c ∈ d1, p c = true) (hx : p x = false) :
    (d1 ++ x :: rest).takeWhile p = d1 ∧
      (d1 ++ x :: rest).dropWhile p = x :: rest := by
  induction d1 with
  | nil => simp [List.takeWhile, List.dropWhile, hx]
  | cons c cs ih =>
    have hc : p c = true := h1 c (.head _)
    have := ih (fun c hc => h1 c (.tail _ hc))
    simp [List.takeWhile, List.dropWhile, hc, this.1, this.2]

/-- Helper: `takeWhile`/`dropWhile` when every element satisfies. -/
theorem aux_takeDropWhile_all {p : Char → Bool} (l : List Char)
    (h : ∀ c ∈ l, p c = true) :
    l.takeWhile p = l ∧ l.dropWhile p = [] := by
  induction l with
  | nil => simp
  | cons c cs ih =>
    have hc : p c = true := h c (.head _)
    have := ih (fun c hcs => h c (.tail _ hcs))
    simp [List.takeWhile, List.dropWhile, hc, this.1, this.2]

/-- Helper: splitting on a separator that never occurs yields one
segment. -/
theorem aux_splitChar_single (sep : Char) (l : List Char) (h : sep ∉ l) :
    splitChar sep l = [l] := by
  induction l with
  | nil => rfl
  | cons c cs ih =>
    have hne : ¬ (c = sep) := fun e => h (e ▸ .head _)
    have := ih (fun hm => h (.tail _ hm))
    simp [splitChar, this, hne]

/-- C10 (amended): the page-range parser is total by construction and
always yields a strictly ascending list of distinct page numbers;
a segment on which the match fails contributes nothing (silently
dropped); a reversed range `N-M` with `M < N` contributes no pages; but
half-open segments `-M` and `N-` DO contribute the single page `M`
resp. `N` instead of being dropped. -/
theorem giffy_c10_theorem :
    (∀ s : String, (_getPrintRangeAsArray s).Pairwise (· < ·)) ∧
    (∀ seg : List Char, segmentMatch seg = none → segContribution seg = []) ∧
    (∀ d1 d2 : List Char, d1 ≠ [] → d2 ≠ [] →
      (∀ c ∈ d1, c.isDigit = true) → (∀ c ∈ d2, c.isDigit = true) →
      natOfDigits d2 < natOfDigits d1 →
      segContribution (d1 ++ '-' :: d2) = []) ∧
    (segContribution "-7".data = [7] ∧ segContribution "7-".data = [7]) := by
  refine ⟨?_, ?_, ?_, by exact ⟨rfl, rfl⟩⟩
  · intro s
    unfold _getPrintRangeAsArray
    have hsorted : (List.insertionSort (· ≤ ·)
        (jsSetDedup (((splitChar ',' s.data).map segContribution).flatten))).Sorted
        (· ≤ ·) := List.sorted_insertionSort _ _
    have hnodup : (List.insertionSort (· ≤ ·)
        (jsSetDedup (((splitChar ',' s.data).map segContribution).flatten))).Nodup :=
      (List.perm_insertionSort _ _).nodup_iff.mpr (aux_jsSetDedupAux_nodup _ [])
    exact (hsorted.and hnodup).imp (fun h => lt_of_le_of_ne h.1 h.2)
  · intro seg h
    simp [segContribution, h]
  · intro d1 d2 h1 h2 hd1 hd2 hlt
    have hnl : ('\n' : Char) ∉ d1 ++ '-' :: d2 := by
      intro hmem
      rcases List.mem_append.mp hmem with hm | hm
      · simpa using hd1 _ hm
      · simp only [List.mem_cons] at hm
        rcases hm with h | h
        · exact absurd h (by decide)
        · simpa using hd2 _ h
    have hmatch : segmentMatch (d1 ++ '-' :: d2) = some (d1, d2) := by
      unfold segmentMatch
      rw [aux_splitChar_single _ _ hnl]
      have htd := aux_takeDropWhile_append d1 '-' d2 hd1 (by decide)
      have hall := aux_takeDropWhile_all d2 hd2
      simp [List.findSome?, lineMatch, htd.1, htd.2, hall.1, hall.2]
    simp only [segContribution, hmatch, h1, h2, ne_eq, not_false_iff, and_self,
      if_pos]
    have : natOfDigits d2 + 1 - natOfDigits d1 = 0 := by omega
    simp [this]

/-- C10 witness: the amended theorem at concrete inputs — ascending
distinct output for `"5,1-3"`, a dropped unmatched segment, and an empty
reversed range `9-8`. -/
theorem giffy_c10_theorem_witness :
    (_getPrintRangeAsArray "5,1-3").Pairwise (· < ·) ∧
    segContribution "abc".data = [] ∧
    segContribution ("9-8".data) = [] := by
  refine ⟨giffy_c10_theorem.1 "5,1-3",
    giffy_c10_theorem.2.1 "abc".data (by rfl), ?_⟩
  have h := giffy_c10_theorem.2.2.1 ['9'] ['8'] (by simp) (by simp)
    (by decide) (by decide) (by decide)
  simpa using h

/-- Helper: a successful body split means the delimiter occurs in the
scanned text. -/
theorem aux_findSplit_occurs (d : List Char) :
    ∀ (cs : List Char) (p : List Char × List Char),
      findSplit d cs = some p → d.IsInfix cs := by
  intro cs
  induction cs with
  | nil =>
    intro p h
    unfold findSplit at h
    split at h
    · rename_i hd; subst hd; exact List.nil_infix
    · cases h
  | cons c cs ih =>
    intro p h
    unfold findSplit at h
    split at h
    · rename_i hpre
      exact (List.isPrefixOf_iff_prefix.mp hpre).isInfix
    · rcases Option.map_eq_some'.mp h with ⟨q, hq, _⟩
      exact List.infix_cons (ih q hq)

/-- Helper: a successful rest match means the end delimiter occurs in
the scanned text. -/
theorem aux_restMatch_occurs (d : List Char) (cs body : List Char)
    (h : restMatch d cs = some body) : d.IsInfix cs := by
  unfold restMatch at h
  split at h
  · cases h
  · rename_i c cs'
    split at h
    · rcases Option.map_eq_some'.mp h with ⟨q, hq, _⟩
      exact List.infix_cons (aux_findSplit_occurs d cs' q hq)
    · cases h

/-- Helper: a successful tag-group search means the end delimiter occurs
in the scanned text. -/
theorem aux_tagSearch_occurs (d : List Char) :
    ∀ (cs : List Char) (p : List Char × List Char),
      tagSearch d cs = some p → d.IsInfix cs := by
  intro cs
  induction cs with
  | nil => intro p h; cases h
  | cons c cs ih =>
    intro p h
    unfold tagSearch at h
    split at h
    · split at h
      · rename_i body hbody
        exact List.infix_cons (aux_restMatch_occurs d cs body hbody)
      · rcases Option.map_eq_some'.mp h with ⟨q, hq, _⟩
        exact List.infix_cons (ih q hq)
    · rcases Option.map_eq_some'.mp h with ⟨q, hq, _⟩
      exact List.infix_cons (ih q hq)

/-- C4: an unterminated block — begin marker without a following end
marker — produces NO token and NO error: the tokenizer comes back empty
(`undefined` in the source), so tokenization does not fail with a syntax
error as specified; and a token is produced only when the begin marker
opens the text and the end marker occurs after it, in that order.  The
result type of the embedded tokenizer has no error outcome at all
because the source tokenizer cannot throw. -/
theorem giffy_c4 :
    (matchBlock "panel" "\\panelBegin\nhello".data = none) ∧
    (∀ (name : String) (src : List Char) (tok : BlockToken),
      matchBlock name src = some tok →
        ('\\' :: (name.data ++ "Begin".data)) <+: src ∧
        ('\n' :: '\\' :: (name.data ++ "End".data)).IsInfix
          (src.drop ('\\' :: (name.data ++ "Begin".data)).length)) := by
  refine ⟨by rfl, ?_⟩
  intro name src tok h
  unfold matchBlock at h
  dsimp only at h
  split at h
  · rename_i hpre
    refine ⟨List.isPrefixOf_iff_prefix.mp hpre, ?_⟩
    have hsuffix : (src.drop ('\\' :: (name.data ++ "Begin".data)).length).dropWhile
        (fun c => c = ' ') <:+ src.drop ('\\' :: (name.data ++ "Begin".data)).length :=
      List.dropWhile_suffix _
    split at h
    · rename_i cs heq
      split at h
      · rename_i content body htag
        have : ('\n' :: '\\' :: (name.data ++ "End".data)).IsInfix ('{' :: cs) :=
          List.infix_cons (aux_tagSearch_occurs _ cs (content, body) htag)
        rw [← heq] at this
        exact this.trans hsuffix.isInfix
      · cases h
    · rename_i hnotbrace
      split at h
      · rename_i body hrest
        have := aux_restMatch_occurs _ _ _ hrest
        exact this.trans hsuffix.isInfix
      · cases h
  · cases h

/-- C4 witness: a well-formed panel block tokenizes, and the theorem
yields the begin-prefix and end-infix facts for it. -/
theorem giffy_c4_witness :
    ('\\' :: ("panel".data ++ "Begin".data)) <+: "\\panelBegin\nhi\n\\panelEnd".data ∧
    ('\n' :: '\\' :: ("panel".data ++ "End".data)).IsInfix
      ("\\panelBegin\nhi\n\\panelEnd".data.drop
        ('\\' :: ("panel".data ++ "Begin".data)).length) :=
  giffy_c4.2 "panel" "\\panelBegin\nhi\n\\panelEnd".data
    ⟨"panel", none, "hi".data⟩ (by rfl)

/-- C8: malformed attribute JSON is non-fatal — `_parseTags` returns the
empty attribute map plus one logged warning, and block tokenization
succeeds regardless of whether the tag JSON parses (so the rest of the
document still renders); parsing the same tag JSON twice yields
identical attribute maps and identical cached `_data` strings. -/
theorem giffy_c8 (jsonParse : String → Option TagMap) (s : String) :
    (jsonParse s = none →
      _parseTags jsonParse s = ([], ["Couldn't parse json [" ++ s ++ "]"])) ∧
    (∀ r₁ r₂ : TagMap × List String,
      r₁ = _parseTags jsonParse s → r₂ = _parseTags jsonParse s →
      r₁ = r₂ ∧ tagLookup r₁.1 "_data" = tagLookup r₂.1 "_data") ∧
    (∀ (name : String) (src : List Char),
      (blockTokenize jsonParse name src).isSome = (matchBlock name src).isSome) := by
  refine ⟨?_, ?_, ?_⟩
  · intro h
    simp [_parseTags, h]
  · rintro r₁ r₂ rfl rfl
    exact ⟨rfl, rfl⟩
  · intro name src
    cases h : matchBlock name src <;> simp [blockTokenize, h]

/-- C8 witness: a failing JSON parser on a concrete malformed tag block
gives the empty map and the warning, and a panel block carrying that
malformed tag still tokenizes. -/
theorem giffy_c8_witness :
    (_parseTags (fun _ => none) "\x7bbad\x7d"
      = ([], ["Couldn't parse json [\x7bbad\x7d]"])) ∧
    ((blockTokenize (fun _ => none) "panel"
        "\\panelBegin \x7bbad\x7d\nhello\n\\panelEnd".data).isSome
      = (matchBlock "panel"
        "\\panelBegin \x7bbad\x7d\nhello\n\\panelEnd".data).isSome) :=
  ⟨(giffy_c8 (fun _ => none) "\x7bbad\x7d").1 rfl,
   (giffy_c8 (fun _ => none) "\x7bbad\x7d").2.2 "panel"
     "\\panelBegin \x7bbad\x7d\nhello\n\\panelEnd".data⟩

/-- Helper: the last element of a list is a member. -/
theorem aux_getLast?_mem (l : List Char) (c : Char) (h : l.getLast? = some c) :
    c ∈ l := by
  have hmem : c ∈ l.getLast? := by rw [Option.mem_def]; exact h
  obtain ⟨hne, hc⟩ := List.mem_getLast?_eq_getLast hmem
  rw [hc]
  exact List.getLast_mem hne

/-- Helper: quote-entity replacement is the identity on text without an
ampersand. -/
theorem aux_replaceQuotFuel_id (cs : List Char) (fuel : Nat)
    (hfuel : cs.length ≤ fuel) (h : '&' ∉ cs) :
    replaceQuotFuel fuel cs = cs := by
  induction cs generalizing fuel with
  | nil => cases fuel <;> rfl
  | cons c rest ih =>
    cases fuel with
    | zero => simp at hfuel
    | succ f =>
      have hc : c ≠ '&' := fun e => h (e ▸ List.mem_cons_self c rest)
      have hpre : ("&quot;".data.isPrefixOf (c :: rest)) = false := by
        have hd : "&quot;".data = '&' :: "quot;".data := rfl
        rw [hd]
        simp [List.isPrefixOf, Ne.symm hc]
      rw [replaceQuotFuel, if_neg (by simp [hpre]),
        ih f (by simpa using hfuel) (fun hm => h (List.mem_cons_of_mem c hm))]

/-- Helper: the entry point of the replacement is the identity on text
without an ampersand. -/
theorem aux_replaceQuot_id (cs : List Char) (h : '&' ∉ cs) :
    replaceQuot cs = cs :=
  aux_replaceQuotFuel_id cs cs.length le_rfl h

/-- Helper: at a position whose remaining text has no opening brace and
does not end in a space, the heading match cannot complete. -/
theorem aux_tryHeadingHere_none (t : List Char) (hch : '{' ∉ t)
    (hlast : ∀ c, t.getLast? = some c → c ≠ ' ') (hne : t ≠ []) :
    tryHeadingHere t = none := by
  have hlastex : ∃ c, t.getLast? = some c := by
    cases hg : t.getLast? with
    | none => exact absurd (List.getLast?_eq_none_iff.mp hg) hne
    | some c => exact ⟨c, rfl⟩
  obtain ⟨cl, hcl⟩ := hlastex
  have hdrop : t.dropWhile (fun c => c = ' ') ≠ [] := by
    intro hd
    have := (List.dropWhile_eq_nil_iff.mp hd) cl (aux_getLast?_mem t cl hcl)
    exact hlast cl hcl (by simpa using this)
  obtain ⟨hd, tl, heq⟩ := List.exists_cons_of_ne_nil hdrop
  have hdmem : hd ∈ t := by
    have hsub : t.dropWhile (fun c => c = ' ') <:+ t := List.dropWhile_suffix _
    exact hsub.sublist.subset (heq ▸ List.mem_cons_self hd tl)
  have hdne : hd ≠ '{' := fun e => hch (e ▸ hdmem)
  unfold tryHeadingHere
  rw [heq]
  split
  · rename_i habs
    cases habs
  · rename_i cs habs
    injection habs with h1 h2
    exact absurd h1 hdne
  · rfl

/-- Helper: on text with no opening brace that does not end in a space,
lazy group 1 swallows the whole text and no tag group is captured. -/
theorem aux_headingSplitGo_clean (t : List Char) :
    ∀ acc, '{' ∉ t → (∀ c, t.getLast? = some c → c ≠ ' ') →
      headingSplitGo acc t = (acc.reverse ++ t, none) := by
  induction t with
  | nil =>
    intro acc _ _
    simp [headingSplitGo, tryHeadingHere]
  | cons c cs ih =>
    intro acc hch hlast
    rw [headingSplitGo, aux_tryHeadingHere_none (c :: cs) hch hlast (by simp)]
    have hch' : '{' ∉ cs := fun hm => hch (List.mem_cons_of_mem c hm)
    have hlast' : ∀ d, cs.getLast? = some d → d ≠ ' ' := by
      intro d hd
      cases cs with
      | nil => cases hd
      | cons e es =>
        exact hlast d (by rw [List.getLast?_cons_cons]; exact hd)
    rw [ih (c :: acc) hch' hlast']
    simp

/-- Helper: span-or-i stripping is the identity on text with no opening
angle bracket. -/
theorem aux_stripSpanIFuel_id (cs : List Char) (fuel : Nat)
    (hfuel : cs.length ≤ fuel) (h : '<' ∉ cs) :
    stripSpanIFuel fuel cs = cs := by
  induction cs generalizing fuel with
  | nil => cases fuel <;> rfl
  | cons c rest ih =>
    cases fuel with
    | zero => simp at hfuel
    | succ f =>
      have hc : c ≠ '<' := fun e => h (e ▸ List.mem_cons_self c rest)
      rw [stripSpanIFuel, if_neg hc,
        ih f (by simpa using hfuel) (fun hm => h (List.mem_cons_of_mem c hm))]

/-- Helper: trim is the identity when neither end is whitespace. -/
theorem aux_jsTrim_id (cs : List Char)
    (hh : ∀ c, cs.head? = some c → jsIsWs c = false)
    (hl : ∀ c, cs.getLast? = some c → jsIsWs c = false) :
    jsTrim cs = cs := by
  have h1 : cs.dropWhile jsIsWs = cs := by
    cases cs with
    | nil => rfl
    | cons c rest =>
      rw [List.dropWhile_cons, if_neg (by simp [hh c rfl])]
  have h2 : cs.reverse.dropWhile jsIsWs = cs.reverse := by
    cases hr : cs.reverse with
    | nil => rfl
    | cons c rest =>
      have hlc : cs.getLast? = some c := by
        rw [← List.head?_reverse, hr]
        rfl
      rw [List.dropWhile_cons, if_neg (by simp [hl c hlc])]
  rw [jsTrim, h1, h2, List.reverse_reverse]

/-- C9: heading text `Hello World` with no id tag renders with the
derived slug id `hello-world`; an explicit id tag is emitted unchanged;
and in general, for any markup-free single-line heading text with no tag
group and non-whitespace ends, the emitted element's id is exactly the
slug of the visible text — spaces replaced by hyphens, then lowercased
(markup stripping and trimming are the identity on such text). -/
theorem giffy_c9 :
    (renderHeading (fun _ => none) "Hello World" 2 =
      "\n\t\t\t\t\t<h2 id=\"hello-world\" class=\"\" >Hello World</h2>\n\t\t\t\t") ∧
    (renderHeading
        (fun s => if s = "\x7b\"id\":\"custom\"\x7d"
          then some [("id", JsVal.str "custom")] else none)
        "Hello \x7b\"id\":\"custom\"\x7d" 2 =
      "\n\t\t\t\t\t<h2 id=\"custom\" class=\"\" >Hello</h2>\n\t\t\t\t") ∧
    (∀ (p : String → Option TagMap) (text : String) (level : Nat),
      '&' ∉ text.data → '{' ∉ text.data → '<' ∉ text.data →
      (∀ c, text.data.head? = some c → jsIsWs c = false) →
      (∀ c, text.data.getLast? = some c → jsIsWs c = false) →
      renderHeading p text level =
        headingTemplate level
          (String.mk ((text.data.map (fun c => if c = ' ' then '-' else c)).map
            (fun c => c.toLower)))
          "" "" "" text) := by
  refine ⟨by rfl, by rfl, ?_⟩
  intro p text level hamp hbrace hangle hhead hlast
  have hq : replaceQuot text.data = text.data := aux_replaceQuot_id _ hamp
  have hsplit : headingSplit text.data = (text.data, none) := by
    rw [headingSplit, aux_headingSplitGo_clean text.data [] hbrace ?_]
    · rfl
    · intro c hc heq
      subst heq
      have := hlast ' ' hc
      simp [jsIsWs] at this
  have hstrip : stripSpanI text.data = text.data :=
    aux_stripSpanIFuel_id _ _ le_rfl hangle
  have htrim : jsTrim text.data = text.data := aux_jsTrim_id _ hhead hlast
  unfold renderHeading
  dsimp only
  rw [hq, hsplit]
  dsimp only
  simp only [tagLookup, codeSlug, hstrip, htrim]

/-- C9 witness: the general slug statement instantiated at the heading
text `Hello World`, with all cleanliness hypotheses discharged on the
concrete characters. -/
theorem giffy_c9_witness :
    renderHeading (fun _ => none) "Hello World" 2 =
      headingTemplate 2
        (String.mk ((("Hello World".data.map
          (fun c => if c = ' ' then '-' else c))).map (fun c => c.toLower)))
        "" "" "" "Hello World" :=
  giffy_c9.2.2 (fun _ => none) "Hello World" 2
    (by decide) (by decide) (by decide)
    (by
      intro c hc
      rw [show ("Hello World".data.head?) = some 'H' from rfl] at hc
      cases hc
      rfl)
    (by
      intro c hc
      rw [show ("Hello World".data.getLast?) = some 'd' from rfl] at hc
      cases hc
      rfl)

/-- Helper: `mapM` over `Option` succeeds exactly on the pointwise
relation between names and resolved values. -/
theorem aux_mapM_forall₂ {α β : Type} (find : α → Option β) :
    ∀ (names : List α) (l : List β),
      names.mapM find = some l ↔
        List.Forall₂ (fun n b => find n = some b) names l := by
  intro names
  induction names with
  | nil =>
    intro l
    constructor
    · intro h
      cases l with
      | nil => exact List.Forall₂.nil
      | cons b bs => simp [List.mapM, List.mapM.loop] at h
    · intro h
      cases h
      rfl
  | cons n rest ih =>
    intro l
    constructor
    · intro h
      rw [List.mapM_cons] at h
      cases hf : find n with
      | none => rw [hf] at h; simp at h
      | some b =>
        rw [hf] at h
        cases hr : rest.mapM find with
        | none => rw [hr] at h; simp at h
        | some bs =>
          rw [hr] at h
          simp at h
          rw [← h]
          exact List.Forall₂.cons hf ((ih bs).mp hr)
    · intro h
      cases h with
      | cons hb hrest =>
        rw [List.mapM_cons, hb, (ih _).mpr hrest]
        rfl

/-- Helper: `mapM` over `Option` succeeds when every lookup succeeds. -/
theorem aux_mapM_isSome {α β : Type} (find : α → Option β) :
    ∀ (names : List α), (∀ n ∈ names, (find n).isSome) →
      (names.mapM find).isSome := by
  intro names
  induction names with
  | nil => intro _; rfl
  | cons n rest ih =>
    intro h
    rw [List.mapM_cons]
    cases hf : find n with
    | none => have := h n (List.mem_cons_self n rest); rw [hf] at this; cases this
    | some b =>
      have hr := ih (fun m hm => h m (List.mem_cons_of_mem n hm))
      cases hrest : rest.mapM find with
      | none => rw [hrest] at hr; cases hr
      | some bs => simp

/-- Helper: with duplicate-free names, searching a list for an element's
own name finds that element. -/
theorem aux_find_self {β : Type} (nameOf : β → String) :
    ∀ (l : List β) (x : β), x ∈ l → ((l.map nameOf).Nodup) →
      l.find? (fun y => nameOf y == nameOf x) = some x := by
  intro l
  induction l with
  | nil => intro x hx; cases hx
  | cons q rest ih =>
    intro x hx hnodup
    rcases List.mem_cons.mp hx with rfl | hmem
    · simp [List.find?]
    · have hq : nameOf q ≠ nameOf x := by
        intro he
        have : nameOf x ∈ rest.map nameOf := List.mem_map_of_mem nameOf hmem
        rw [← he] at this
        exact (List.nodup_cons.mp hnodup).1 this
      rw [List.find?]
      rw [show (nameOf q == nameOf x) = false by simpa using hq]
      exact ih x hmem (List.nodup_cons.mp hnodup).2

/-- Helper: job counts add over list append. -/
theorem aux_countTask_append (a b : List Job) (t : String) :
    countTask (a ++ b) t = countTask a t + countTask b t := by
  simp [countTask, List.filter_append]

/-- Helper: job counts over a flattened list of lists are the sum of the
parts. -/
theorem aux_countTask_flatten (ls : List (List Job)) (t : String) :
    countTask ls.flatten t = (ls.map (fun l => countTask l t)).sum := by
  induction ls with
  | nil => rfl
  | cons l rest ih => simp [aux_countTask_append, ih]

/-- Helper: for one supported (project, format) pair with no task or
language filters, the build callback creates one `html` job per declared
language, exactly one job for each of the five other build tasks, and no
warnings. -/
theorem aux_buildCallback_counts (config : Config) (args : BuildArgs)
    (p : Project) (f : FormatCfg) (pf : ProjFormat)
    (hl : args.languages = none) (ht : args.tasks = none)
    (hfind : p.formats.find? (fun x => x.name == f.name) = some pf) :
    countTask (buildCallback config args p f).1 "html" = pf.languages.length ∧
    (∀ t ∈ (["fonts", "images", "scripts", "stylesheets", "vendors"] : List String),
      countTask (buildCallback config args p f).1 t = 1) ∧
    (buildCallback config args p f).2 = [] := by
  have hcb : buildCallback config args p f =
      ([_createJob config p f "fonts" none args.debug]
        ++ pf.languages.map (fun lang =>
            _createJob config p f "html" (some lang) args.debug)
        ++ [_createJob config p f "images" none args.debug]
        ++ [_createJob config p f "scripts" none args.debug]
        ++ [_createJob config p f "stylesheets" none args.debug]
        ++ [_createJob config p f "vendors" none args.debug], []) := by
    unfold buildCallback
    rw [ht, hl, hfind]
    simp [listBuildTasks]
  rw [hcb]
  refine ⟨?_, ?_, rfl⟩
  · simp only [aux_countTask_append]
    have hmap : countTask (pf.languages.map (fun lang =>
        _createJob config p f "html" (some lang) args.debug)) "html"
        = pf.languages.length := by
      simp [countTask, List.filter_map, Function.comp, _createJob]
    rw [hmap]
    simp [countTask, _createJob]
  · intro t htm
    simp only [aux_countTask_append]
    have hmap : countTask (pf.languages.map (fun lang =>
        _createJob config p f "html" (some lang) args.debug)) t = 0 := by
      have hne : (("html" : String) == t) = false := by
        simp only [List.mem_cons, List.not_mem_nil, or_false] at htm
        rcases htm with rfl | rfl | rfl | rfl | rfl <;> rfl
      simp [countTask, List.filter_map, Function.comp, _createJob, hne]
    rw [hmap]
    simp only [List.mem_cons, List.not_mem_nil, or_false] at htm
    rcases htm with rfl | rfl | rfl | rfl | rfl <;>
      simp [countTask, _createJob]

/-- Helper: with duplicate-free names, resolving a list's own names
against itself returns the list. -/
theorem aux_mapM_find_self {β : Type} (nameOf : β → String) (l : List β)
    (hnodup : (l.map nameOf).Nodup) :
    (l.map nameOf).mapM (fun n => l.find? (fun y => nameOf y == n)) = some l := by
  rw [aux_mapM_forall₂]
  rw [List.forall₂_map_left_iff]
  rw [List.forall₂_same]
  intro x hx
  exact aux_find_self nameOf l x hx hnodup

/-- Helper: `_createJobs` under fully resolved selections is the flat
concatenation of per-pair expansions, projects outermost. -/
theorem aux_createJobs_eq
    (callback : Config → BuildArgs → Project → FormatCfg → List Job × List String)
    (config : Config) (args : BuildArgs) (projects : List Project)
    (fsel : Project → List FormatCfg)
    (hsel : selProjects config args = some projects)
    (hf : ∀ p ∈ projects, selFormats config args p = some (fsel p)) :
    _createJobs callback config args = some
      ((projects.map (fun p => ((((fsel p).map
        (fun f => pairExpansion callback config args p f)).map Prod.fst).flatten))).flatten,
       (projects.map (fun p => ((((fsel p).map
        (fun f => pairExpansion callback config args p f)).map Prod.snd).flatten))).flatten) := by
  unfold _createJobs
  rw [hsel]
  dsimp only
  have key : ∀ (ps : List Project), (∀ p ∈ ps, selFormats config args p = some (fsel p)) →
      ps.mapM (fun project => (selFormats config args project).map (fun formats =>
        let pairs := formats.map (fun format =>
          pairExpansion callback config args project format)
        ((pairs.map Prod.fst).flatten, (pairs.map Prod.snd).flatten)))
      = some (ps.map (fun p =>
        let pairs := (fsel p).map (fun format =>
          pairExpansion callback config args p format)
        ((pairs.map Prod.fst).flatten, (pairs.map Prod.snd).flatten))) := by
    intro ps
    induction ps with
    | nil => intro _; rfl
    | cons q rest ih =>
      intro h
      rw [List.mapM_cons, h q (List.mem_cons_self q rest),
        ih (fun p hp => h p (List.mem_cons_of_mem q hp))]
      rfl
  rw [key projects hf]
  show some _ = some (_, _)
  refine congrArg some ?_
  rw [Prod.ext_iff]
  constructor <;>
  · dsimp only
    rw [List.map_map]
    rfl

/-- Helper: a sum of constant contributions. -/
theorem aux_sum_const {α : Type} (l : List α) (f : α → Nat) (k : Nat)
    (h : ∀ x ∈ l, f x = k) : (l.map f).sum = l.length * k := by
  induction l with
  | nil => simp
  | cons x rest ih =>
    simp only [List.map_cons, List.sum_cons, List.length_cons,
      h x (List.mem_cons_self x rest),
      ih (fun y hy => h y (List.mem_cons_of_mem x hy))]
    ring

/-- Helper: a flatten of all-empty contributions is empty. -/
theorem aux_flatten_nil {α β : Type} (l : List α) (f : α → List β)
    (h : ∀ x ∈ l, f x = []) : (l.map f).flatten = [] := by
  induction l with
  | nil => rfl
  | cons x rest ih =>
    simp [h x (List.mem_cons_self x rest),
      ih (fun y hy => h y (List.mem_cons_of_mem x hy))]

/-- Helper: per-project job counts — for one project whose selected
formats resolve pointwise to its required-format entries, the pair
expansions yield one html job per declared language of each entry, one
job per entry for each other build task, and no warnings. -/
theorem aux_perProject_counts (config : Config) (args : BuildArgs)
    (p : Project) (L : Nat)
    (hl : args.languages = none) (ht : args.tasks = none)
    (hnodup : (p.formats.map ProjFormat.name).Nodup)
    (hL : ∀ pf ∈ p.formats, pf.languages.length = L) :
    ∀ (pfs : List ProjFormat) (fls : List FormatCfg),
      List.Forall₂ (fun pf b =>
        config.formats.find? (fun y => y.name == pf.name) = some b) pfs fls →
      (∀ pf ∈ pfs, pf ∈ p.formats) →
      countTask (((fls.map (fun f =>
        pairExpansion buildCallback config args p f)).map Prod.fst).flatten)
        "html" = pfs.length * L ∧
      (∀ t ∈ (["fonts", "images", "scripts", "stylesheets", "vendors"] : List String),
        countTask (((fls.map (fun f =>
          pairExpansion buildCallback config args p f)).map Prod.fst).flatten)
          t = pfs.length) ∧
      ((fls.map (fun f =>
        pairExpansion buildCallback config args p f)).map Prod.snd).flatten = [] := by
  intro pfs fls hforall
  induction hforall with
  | nil =>
    intro _
    exact ⟨by simp [countTask], fun t _ => by simp [countTask], rfl⟩
  | @cons pf f pfs' fls' hpf hrest ih =>
    intro hsub
    have hmem : pf ∈ p.formats := hsub pf (List.mem_cons_self pf pfs')
    have hfname : f.name = pf.name := by
      have := List.find?_some hpf
      simpa using this
    have hguard : p.formats.find? (fun x => x.name == f.name) = some pf := by
      rw [show (fun (x : ProjFormat) => x.name == f.name)
        = (fun (x : ProjFormat) => x.name == pf.name) by rw [hfname]]
      exact aux_find_self ProjFormat.name p.formats pf hmem hnodup
    have hpair : pairExpansion buildCallback config args p f =
        buildCallback config args p f := by
      unfold pairExpansion
      rw [hguard]
      rfl
    have hcb := aux_buildCallback_counts config args p f pf hl ht hguard
    obtain ⟨ih1, ih2, ih3⟩ := ih (fun q hq => hsub q (List.mem_cons_of_mem pf hq))
    refine ⟨?_, ?_, ?_⟩
    · simp only [List.map_cons, List.flatten_cons, aux_countTask_append]
      rw [hpair, hcb.1, ih1, hL pf hmem]
      simp [Nat.succ_mul, Nat.add_comm]
    · intro t htm
      simp only [List.map_cons, List.flatten_cons, aux_countTask_append]
      rw [hpair, hcb.2.1 t htm, ih2 t htm]
      simp [Nat.add_comm]
    · simp only [List.map_cons, List.flatten_cons]
      rw [hpair, hcb.2.2, ih3]
      rfl

/-- C6: with no selection filters, the job factory creates exactly
`P × F × L` html jobs (one per language of each project/format pair) and
`P × F` jobs for each non-language build task, with no warnings, for any
configuration with `P` projects, `F` required formats per project and
`L` languages per pair; a selected (project, format) pair the project
does not list as required expands to zero jobs plus exactly one skip
warning; and the whole expansion still completes whenever the selection
resolves — unsupported pairs never abort the run. -/
theorem giffy_c6 :
    (∀ (config : Config) (args : BuildArgs) (P F L : Nat),
      args.projects = none → args.formats = none → args.languages = none →
      args.tasks = none →
      (config.projects.map Project.name).Nodup →
      (∀ p ∈ config.projects, (p.formats.map ProjFormat.name).Nodup) →
      (∀ p ∈ config.projects, ∀ pf ∈ p.formats,
        (config.formats.find? (fun y => y.name == pf.name)).isSome) →
      config.projects.length = P →
      (∀ p ∈ config.projects, p.formats.length = F) →
      (∀ p ∈ config.projects, ∀ pf ∈ p.formats, pf.languages.length = L) →
      ∃ jobs warnings, getBuildJobs config args = some (jobs, warnings) ∧
        countTask jobs "html" = P * F * L ∧
        (∀ t ∈ (["fonts", "images", "scripts", "stylesheets", "vendors"] : List String),
          countTask jobs t = P * F) ∧
        warnings = []) ∧
    (∀ (callback : Config → BuildArgs → Project → FormatCfg → List Job × List String)
      (config : Config) (args : BuildArgs) (project : Project) (format : FormatCfg),
      project.formats.find? (fun x => x.name == format.name) = none →
      pairExpansion callback config args project format =
        ([], ["Project \"" ++ project.name ++ "\" doesn't support format \"" ++
          format.name ++ "\": skipping..."])) ∧
    (∀ (config : Config) (args : BuildArgs) (projects : List Project),
      selProjects config args = some projects →
      (∀ p ∈ projects, (selFormats config args p).isSome) →
      (getBuildJobs config args).isSome) := by
  refine ⟨?_, ?_, ?_⟩
  · intro config args P F L h1 h2 h3 h4 h5 h6 h7 h8 h9 h10
    have hselP : selProjects config args = some config.projects := by
      unfold selProjects
      rw [h1]
      exact aux_mapM_find_self Project.name config.projects h5
    have hfsome : ∀ p ∈ config.projects, (selFormats config args p).isSome := by
      intro p hp
      unfold selFormats
      rw [h2]
      apply aux_mapM_isSome
      intro n hn
      obtain ⟨pf, hpf, rfl⟩ := List.mem_map.mp hn
      exact h7 p hp pf hpf
    classical
    have hfs : ∀ p ∈ config.projects,
        selFormats config args p = some ((selFormats config args p).getD []) := by
      intro p hp
      have := hfsome p hp
      cases hsf : selFormats config args p with
      | none => rw [hsf] at this; cases this
      | some l => simp [hsf]
    have hdecomp := aux_createJobs_eq buildCallback config args config.projects
      (fun p => (selFormats config args p).getD []) hselP hfs
    have hperF : ∀ p ∈ config.projects,
        List.Forall₂ (fun pf b =>
          config.formats.find? (fun y => y.name == pf.name) = some b)
          p.formats ((selFormats config args p).getD []) := by
      intro p hp
      have hsf := hfs p hp
      have hunf : selFormats config args p = (p.formats.map (fun x => x.name)).mapM
          (fun n => config.formats.find? (fun y => y.name == n)) := by
        unfold selFormats
        rw [h2]
      rw [hunf] at hsf
      have := (aux_mapM_forall₂ _ _ _).mp hsf
      rw [List.forall₂_map_left_iff] at this
      rwa [hunf]
    have hcounts := fun p (hp : p ∈ config.projects) =>
      aux_perProject_counts config args p L h3 h4 (h6 p hp) (h10 p hp)
        p.formats ((selFormats config args p).getD []) (hperF p hp)
        (fun _ hq => hq)
    refine ⟨_, _, by unfold getBuildJobs; exact hdecomp, ?_, ?_, ?_⟩
    · rw [aux_countTask_flatten, List.map_map]
      rw [aux_sum_const config.projects _ (F * L) ?_]
      · rw [h8]
        ring
      · intro p hp
        have := (hcounts p hp).1
        simp only [Function.comp]
        rw [this, h9 p hp]
    · intro t htm
      rw [aux_countTask_flatten, List.map_map]
      rw [aux_sum_const config.projects _ F ?_]
      · rw [h8]
      · intro p hp
        have := (hcounts p hp).2.1 t htm
        simp only [Function.comp]
        rw [this, h9 p hp]
    · exact aux_flatten_nil _ _ (fun p hp => (hcounts p hp).2.2)
  · intro callback config args project format h
    unfold pairExpansion
    rw [h]
    rfl
  · intro config args projects hsel hsome
    unfold getBuildJobs _createJobs
    rw [hsel]
    dsimp only
    have : (projects.mapM (fun project =>
        (selFormats config args project).map (fun formats =>
          let pairs := formats.map (fun format =>
            pairExpansion buildCallback config args project format)
          ((pairs.map Prod.fst).flatten, (pairs.map Prod.snd).flatten)))).isSome := by
      apply aux_mapM_isSome
      intro p hp
      have := hsome p hp
      cases hsf : selFormats config args p with
      | none => rw [hsf] at this; cases this
      | some l => simp [hsf]
    cases hm : projects.mapM (fun project =>
        (selFormats config args project).map (fun formats =>
          let pairs := formats.map (fun format =>
            pairExpansion buildCallback config args project format)
          ((pairs.map Prod.fst).flatten, (pairs.map Prod.snd).flatten))) with
    | none => rw [hm] at this; cases this
    | some l => simp [hm]

/-- C6 witness: a configuration with 2 projects × 2 required formats ×
2 languages and an unfiltered selection expands to 8 html jobs, 4 jobs
per other build task, and no warnings. -/
theorem giffy_c6_witness :
    ∃ jobs warnings,
      getBuildJobs
        ⟨"build", "export",
          [⟨"fa", "sfa", "1.0.0"⟩, ⟨"fb", "sfb", "1.0.0"⟩],
          [⟨"p1", "sp1", "1.0.0",
            [⟨"fa", "1.x", ["en", "de"]⟩, ⟨"fb", "1.x", ["en", "de"]⟩]⟩,
           ⟨"p2", "sp2", "1.0.0",
            [⟨"fa", "1.x", ["en", "de"]⟩, ⟨"fb", "1.x", ["en", "de"]⟩]⟩]⟩
        ⟨none, none, none, none, false⟩ = some (jobs, warnings) ∧
      countTask jobs "html" = 2 * 2 * 2 ∧
      (∀ t ∈ (["fonts", "images", "scripts", "stylesheets", "vendors"] : List String),
        countTask jobs t = 2 * 2) ∧
      warnings = [] :=
  giffy_c6.1 _ _ 2 2 2 rfl rfl rfl rfl (by decide) (by decide) (by decide)
    rfl (by decide) (by decide)
